import Mathlib

/-!
Verification of the `cheltuieli-app/language` template transformer
(`src/index.ts`) against its specification.

The source walks an already-parsed XML document tree and turns it into an
in-memory content model (`Issue`).  We embed the document tree as an
inductive `Node`, DOM attribute maps as association lists, and translate
each source function (`fromAttributes`, `push`, the `Parser` iteration
methods, `parse`) into a pure Lean function, threading the mutable
`IterContext` of the source explicitly.
-/

namespace CheltuieliLang

/-- A parsed DOM node: either an element (with a tag name, an attribute
map and a list of child nodes, in document order) or a raw text node.
DOM attribute maps have unique keys; we model them as association lists
and `getNamedItem` as first-match lookup. -/
inductive Node where
  | element (tagName : String) (attributes : List (String × String)) (childNodes : List Node)
  | text (data : String)
deriving Repr

abbrev Attrs := List (String × String)

/-- DOM `NamedNodeMap.getNamedItem(key)?.value`: the value of the attribute
named `key`, if present. -/
def getNamedItem (key : String) (attrs : Attrs) : Option String :=
  (attrs.find? (fun p => p.1 = key)).map (fun p => p.2)

/-- `src/index.ts` lines 31-38, `fromAttributes(key, ...attr)`: scan the
attribute sources left to right and return the first value that is present
and truthy (non-empty); `undefined` becomes `none`. -/
def fromAttributes (key : String) : List Attrs → Option String
  | [] => none
  | a :: rest =>
    match getNamedItem key a with
    | some v => if v = "" then fromAttributes key rest else some v
    | none => fromAttributes key rest

mutual

/-- DOM `node.textContent`: the concatenation of all descendant text data,
in document order. -/
def textContent : Node → String
  | .text s => s
  | .element _ _ childNodes => textContentList childNodes

/-- `textContent` folded over a child list. -/
def textContentList : List Node → String
  | [] => ""
  | n :: ns => textContent n ++ textContentList ns

end

/-- JS `String.prototype.toLowerCase` as applied to tag names: lower-case
every character (`Char.toLower`, ASCII mapping).  This is extensionally
`String.toLower`, spelled over the character list so that concrete tag
names evaluate definitionally. -/
def toLowerCase (s : String) : String :=
  String.mk (s.data.map Char.toLower)

/-- JS `String.prototype.trim` as applied to text content: drop leading
and trailing whitespace (`Char.isWhitespace`).  This is extensionally
`String.trim`, spelled over the character list so that concrete text
evaluates definitionally. -/
def trimString (s : String) : String :=
  String.mk
    (((s.data.dropWhile Char.isWhitespace).reverse.dropWhile Char.isWhitespace).reverse)

-- `src/index.ts` lines 21-29, the `Tags` enum.
namespace Tags

def Expression : String := "e"
def Definition : String := "def"
def Diagram : String := "diagram"
def Paragraph : String := "p"
def Scenario : String := "scenario"
def Statement : String := "statement"
def Table : String := "table"

end Tags

/-- `src/index.ts` lines 40-47, the `Display` enum. -/
inductive Display where
  | P_TEXT
  | I_TEXT
  | I_FORM
  | O_TEXT
  | O_TABLE
  | O_DIAGRAM
deriving Repr, DecidableEq

/-- `src/index.ts` lines 49-54, the `Content` record.  Fields that the
source may leave `undefined` (attribute lookups that can fail, and `value`
itself for attribute-sourced kinds) are `Option String`; a field a branch
does not set is `none` (absent).  The source field `def` is a Lean keyword,
so it is embedded as `defField`. -/
structure Content where
  displayId : String
  display : Display
  value : Option String := none
  rel : Option String := none
  ref : Option String := none
  type : Option String := none
  max : Option String := none
  cols : Option String := none
  sort : Option String := none
  fold : Option String := none
  action : Option String := none
  defField : Option String := none
  x : Option String := none
  y : Option String := none
  id : Option String := none
deriving Repr, DecidableEq

/-- JS truthiness of a `string | undefined` value: present and non-empty. -/
def truthy : Option String → Bool
  | some s => s ≠ ""
  | none => false

/-- The per-tag occurrence counter `Record<string, number>` of
`IterContext`, as an association list. -/
abbrev Count := List (String × Nat)

/-- `count[tag] || 0`: the current count for `tag`, defaulting to `0`. -/
def getCount (c : Count) (tag : String) : Nat :=
  match c.lookup tag with
  | some n => n
  | none => 0

/-- `count[tag] = n`: update the entry for `tag`, or add it. -/
def setCount : Count → String → Nat → Count
  | [], tag, n => [(tag, n)]
  | (t, m) :: rest, tag, n =>
    if t = tag then (tag, n) :: rest else (t, m) :: setCount rest tag n

/-- `src/index.ts` lines 56-59, `IterContext`: the ordered stack of built
content records plus the per-tag counter map, threaded through one
article's traversal. -/
structure IterContext where
  stack : List Content
  count : Count
deriving Repr, DecidableEq

/-- The record literal of the `p` (paragraph) case, `src/index.ts` lines
71-75; `tc` is the element's `textContent`. -/
def paragraphContent (tc : String) (displayId : String) : Content :=
  { value := some (trimString tc),
    display := Display.P_TEXT,
    displayId := displayId }

/-- The record literal of the `e` (expression) case, lines 79-86. -/
def expressionContent (attributes : Attrs) (displayId : String) : Content :=
  { rel := fromAttributes "rel" [attributes],
    ref := fromAttributes "name" [attributes],
    type := fromAttributes "type" [attributes],
    value := fromAttributes "value" [attributes],
    display := Display.I_TEXT,
    displayId := displayId }

/-- The record literal of the `table` case, lines 93-101. -/
def tableContent (attributes parentAttrs : Attrs) (displayId : String) : Content :=
  { max := fromAttributes "max" [attributes],
    cols := fromAttributes "cols" [attributes],
    sort := fromAttributes "sort" [attributes],
    fold := fromAttributes "fold" [attributes],
    value := fromAttributes "value" [attributes, parentAttrs],
    display := Display.O_TABLE,
    displayId := displayId }

/-- The record literal of the `diagram` case, lines 105-115. -/
def diagramContent (attributes parentAttrs : Attrs) (displayId : String) : Content :=
  { y := fromAttributes "y" [attributes],
    x := fromAttributes "x" [attributes],
    id := fromAttributes "id" [attributes],
    max := fromAttributes "max" [attributes],
    fold := fromAttributes "fold" [attributes],
    type := fromAttributes "type" [attributes],
    value := fromAttributes "value" [attributes, parentAttrs],
    display := Display.O_DIAGRAM,
    displayId := displayId }

/-- The record literal of the `def` (definition) case, lines 119-126;
`tc` is the element's `textContent`. -/
def definitionContent (attributes : Attrs) (tc : String) (displayId : String) : Content :=
  { defField := some "local",
    ref := fromAttributes "name" [attributes],
    type := fromAttributes "type" [attributes],
    value := if trimString tc = "" then fromAttributes "value" [attributes] else some (trimString tc),
    display := Display.I_TEXT,
    displayId := displayId }

/-- The record literal of the `scenario` case, lines 130-135. -/
def scenarioContent (attributes : Attrs) (displayId : String) : Content :=
  { type := fromAttributes "type" [attributes],
    value := fromAttributes "value" [attributes],
    display := Display.I_FORM,
    displayId := displayId }

/-- The record literal of the `statement` case, lines 139-144; `tc` is the
element's `textContent`. -/
def statementContent (attributes : Attrs) (tc : String) (displayId : String) : Content :=
  { value := if trimString tc = "" then fromAttributes "value" [attributes] else some (trimString tc),
    action := fromAttributes "action" [attributes],
    display := Display.O_TEXT,
    displayId := displayId }

mutual

/-- `src/index.ts` lines 61-148, `push(node, ctx, idx)`.  A non-element
node (`typeof tagName !== "string"`) is returned unchanged.  For an element
the per-tag counter is incremented first (for every tag, recognized or
not), then the switch builds at most one record; only the `e` (expression)
case recurses into the element's children.  The source reads
`node.parentElement.attributes`; here the parent's attribute map is the
explicit argument `parentAttrs`.  The source's recursion iterates
`node.children` (element children only); we iterate all child nodes, which
is equivalent because `push` leaves the context unchanged on non-element
nodes. -/
def push (node : Node) (parentAttrs : Attrs) (ctx : IterContext) (idx : Nat) :
    IterContext :=
  match node with
  | .text _ => ctx
  | .element tagName attributes childNodes =>
    let tag := toLowerCase tagName
    let count := setCount ctx.count tag (getCount ctx.count tag + 1)
    let displayId := toString idx ++ "." ++ toString (getCount count tag)
    if tag = Tags.Paragraph then
      { stack := ctx.stack ++ [paragraphContent (textContentList childNodes) displayId],
        count := count }
    else if tag = Tags.Expression then
      let ctx1 : IterContext :=
        { stack := ctx.stack ++ [expressionContent attributes displayId],
          count := count }
      pushList childNodes attributes ctx1 idx
    else if tag = Tags.Table then
      { stack := ctx.stack ++ [tableContent attributes parentAttrs displayId],
        count := count }
    else if tag = Tags.Diagram then
      { stack := ctx.stack ++ [diagramContent attributes parentAttrs displayId],
        count := count }
    else if tag = Tags.Definition then
      { stack := ctx.stack ++ [definitionContent attributes (textContentList childNodes) displayId],
        count := count }
    else if tag = Tags.Scenario then
      { stack := ctx.stack ++ [scenarioContent attributes displayId],
        count := count }
    else if tag = Tags.Statement then
      { stack := ctx.stack ++ [statementContent attributes (textContentList childNodes) displayId],
        count := count }
    else
      { stack := ctx.stack, count := count }

/-- The child loop of the expression case (`src/index.ts` lines 88-89) and
of `iterEachArticle` (lines 178-180): push each node in order, threading
the context. -/
def pushList (nodes : List Node) (parentAttrs : Attrs) (ctx : IterContext)
    (idx : Nat) : IterContext :=
  match nodes with
  | [] => ctx
  | n :: ns => pushList ns parentAttrs (push n parentAttrs ctx idx) idx

end

mutual

/-- DOM `document.getElementsByTagName(tag)`: every element in the tree
whose tag name matches `tag` exactly (XML documents are case-sensitive),
in document (pre-order) order.  The document is modeled by its root
element, which is itself included when it matches. -/
def getElementsByTagName (tag : String) : Node → List Node
  | .text _ => []
  | .element tagName attributes childNodes =>
    (if tagName = tag then [Node.element tagName attributes childNodes] else [])
      ++ getElementsByTagNameList tag childNodes

/-- `getElementsByTagName` folded over a child list. -/
def getElementsByTagNameList (tag : String) : List Node → List Node
  | [] => []
  | n :: ns => getElementsByTagName tag n ++ getElementsByTagNameList tag ns

end

/-- The attribute map of a node (elements only; `getElementsByTagName`
results are always elements, matching the source's `as Element` cast). -/
def attrsOf : Node → Attrs
  | .element _ attributes _ => attributes
  | .text _ => []

/-- The child node list of a node. -/
def childNodesOf : Node → List Node
  | .element _ _ childNodes => childNodes
  | .text _ => []

/-- `src/index.ts` lines 150-153, `Terminology`: a document-wide
name/value pair.  Both come from `fromAttributes` casts that may be
`undefined`, hence `Option String`. -/
structure Terminology where
  name : Option String
  value : Option String
deriving Repr, DecidableEq

/-- `src/index.ts` lines 155-158, `Article`: a title plus the filtered
content sequence. -/
structure Article where
  title : Option String
  content : List Content
deriving Repr, DecidableEq

/-- The state of a `Parser` instance (`src/index.ts` lines 160-162).  The
source stores articles and terminology in JS `Set`s; each `add` call
receives a freshly allocated object, and JS sets compare objects by
reference, so the sets are faithfully modeled as insertion-ordered
append-only lists with no structural deduplication. -/
structure Parser where
  articles : List Article := []
  terminology : List Terminology := []
deriving Repr, DecidableEq

/-- The body of one iteration of `iterEachArticle`'s loop
(`src/index.ts` lines 175-182): destructure the article element, run a
fresh `IterContext` over its child nodes with ordinal `idx`, and keep only
records with a truthy `value`. -/
def buildArticle (article : Node) (idx : Nat) : Article :=
  let title := fromAttributes "title" [attrsOf article]
  let ctx := pushList (childNodesOf article) (attrsOf article) { stack := [], count := [] } idx
  { title := title, content := ctx.stack.filter (fun a => truthy a.value) }

/-- The loop of `iterEachArticle` over the element list, with `i` the
0-based loop counter (the article is processed with ordinal `i + 1`). -/
def buildArticles : List Node → Nat → List Article
  | [], _ => []
  | a :: rest, i => buildArticle a (i + 1) :: buildArticles rest (i + 1)

/-- `src/index.ts` lines 171-184, `Parser.iterEachArticle`: enumerate all
`article` elements and append one built `Article` per element to
`this.articles`. -/
def iterEachArticle (xml : Node) (p : Parser) : Parser :=
  { p with articles := p.articles ++ buildArticles (getElementsByTagName "article" xml) 0 }

/-- The body of one iteration of `iterEachTerminology`'s loop
(`src/index.ts` lines 190-194): resolve `name` and `value` from the
definition element's attributes. -/
def buildTerminology (node : Node) : Terminology :=
  { name := fromAttributes "name" [attrsOf node],
    value := fromAttributes "value" [attrsOf node] }

/-- `src/index.ts` lines 186-196, `Parser.iterEachTerminology`: enumerate
all `def` elements document-wide and append one `Terminology` pair per
element to `this.terminology`. -/
def iterEachTerminology (xml : Node) (p : Parser) : Parser :=
  { p with terminology :=
      p.terminology ++ (getElementsByTagName "def" xml).map buildTerminology }

/-- `src/index.ts` lines 164-169, `Parser.iterEach`: run the article pass,
then the terminology pass. -/
def iterEach (xml : Node) (p : Parser) : Parser :=
  iterEachTerminology xml (iterEachArticle xml p)

/-- `src/index.ts` lines 199-205, `Issue`: the final aggregate. -/
structure Issue where
  terminology : List Terminology
  articles : List Article
  language : Option String
  currency : Option String
  version : Option String
deriving Repr, DecidableEq

/-- `src/index.ts` lines 207-219, `parse(dom, structure)`.  The external
`DOMParser` collaborator is modeled as a function from the raw string to
the parsed tree; the parsed `Document` is modeled by its root element, so
`xml.firstElementChild` is the tree itself.  `Array.from` of the
insertion-ordered sets yields the accumulated lists. -/
def parse (dom : String → Node) (structure_ : String) : Issue :=
  let xml := dom structure_
  let attributes := attrsOf xml
  let p := iterEach xml { }
  { terminology := p.terminology,
    articles := p.articles,
    language := fromAttributes "language" [attributes],
    currency := fromAttributes "currency" [attributes],
    version := fromAttributes "version" [attributes] }

/-! Verification-layer definitions (not part of the source embedding). -/

/-- The display identifier string `"idx.n"` built by `push`. -/
def mkId (idx n : Nat) : String :=
  toString idx ++ "." ++ toString n

/-- The recognized tag vocabulary: the cases of the `switch` in `push`. -/
def recognizedTags : List String :=
  [Tags.Paragraph, Tags.Expression, Tags.Table, Tags.Diagram,
   Tags.Definition, Tags.Scenario, Tags.Statement]

/-- The (lower-cased) source tag a built `Content` record came from.  Each
branch of `push` fixes the `display` kind; the two `input/text` kinds are
distinguished by the `def` field, which only the definition branch sets
(to the constant `"local"`). -/
def tagOf (c : Content) : String :=
  match c.display with
  | .P_TEXT => Tags.Paragraph
  | .I_TEXT => if c.defField = some "local" then Tags.Definition else Tags.Expression
  | .I_FORM => Tags.Scenario
  | .O_TEXT => Tags.Statement
  | .O_TABLE => Tags.Table
  | .O_DIAGRAM => Tags.Diagram

/-- `[mkId idx (start+1), mkId idx (start+2), ..., mkId idx (start+len)]`:
the expected run of display identifiers for consecutive occurrences of one
tag. -/
def idsFrom (idx start : Nat) : Nat → List String
  | 0 => []
  | len + 1 => mkId idx (start + 1) :: idsFrom idx (start + 1) len

/-- The numbering invariant of one traversal step for tag `t`: relative to
the entry counter map `c`, the records in `ctx.stack` that came from tag
`t` carry the consecutive display identifiers continuing `t`'s counter,
and `ctx.count` has advanced `t`'s counter by exactly the number of such
records. -/
def StackOk (t : String) (idx : Nat) (c : Count) (ctx : IterContext) : Prop :=
  getCount ctx.count t
      = getCount c t + (ctx.stack.filter (fun r => tagOf r = t)).length
  ∧ (ctx.stack.filter (fun r => tagOf r = t)).map (fun r => r.displayId)
      = idsFrom idx (getCount c t) (ctx.stack.filter (fun r => tagOf r = t)).length

/-- The tag name of a node, when it is an element. -/
def tagNameOf : Node → Option String
  | .element tagName _ _ => some tagName
  | .text _ => none

/-- Occurrence of a node in a document tree (reflexive-transitive child
descent); used to state document-wide enumeration claims. -/
inductive InTree : Node → Node → Prop where
  | refl (n : Node) : InTree n n
  | child {n c : Node} {tagName : String} {attributes : Attrs}
      {childNodes : List Node} (hc : c ∈ childNodes) (h : InTree n c) :
      InTree n (.element tagName attributes childNodes)

/-- Modelled from the spec's words (§4.1, §8, claim C4), for comparison
with the source's `fromAttributes "value" [attributes, parentAttrs]`: the
`value` of a `table`/`diagram` record is the element's own `value`
attribute if present and non-empty, otherwise the parent element's `value`
attribute if present and non-empty, otherwise absent. -/
def specTableDiagramValue (attributes parentAttrs : Attrs) : Option String :=
  let parentPart :=
    match getNamedItem "value" parentAttrs with
    | some w => if w = "" then none else some w
    | none => none
  match getNamedItem "value" attributes with
  | some v => if v = "" then parentPart else some v
  | none => parentPart

/-! Example documents used for concrete instances. -/

/-- A document-wide definition element outside any article. -/
def exDefOuter : Node := Node.element "def" [("name", "A"), ("value", "V")] []

/-- A definition element nested inside an article. -/
def exDefInner : Node := Node.element "def" [("name", "B"), ("value", "W")] []

/-- An article containing one definition element. -/
def exArticle : Node := Node.element "article" [("title", "T")] [exDefInner]

/-- A document with one definition outside any article and one inside. -/
def exDoc : Node :=
  Node.element "root" [("language", "ro-RO")] [exDefOuter, exArticle]

/-- A document with two structurally identical articles and two
structurally identical definitions. -/
def dupDoc : Node :=
  Node.element "root" [("language", "en")]
    [Node.element "article" [("title", "Same")] [],
     Node.element "article" [("title", "Same")] [],
     Node.element "def" [("name", "N"), ("value", "V")] [],
     Node.element "def" [("name", "N"), ("value", "V")] []]

/-! Helper lemmas. -/

theorem getCount_nil (u : String) : getCount [] u = 0 := rfl

theorem getCount_cons (t : String) (m : Nat) (rest : Count) (u : String) :
    getCount ((t, m) :: rest) u = if u = t then m else getCount rest u := by
  simp only [getCount, List.lookup]
  rcases eq_or_ne u t with h | h
  · simp [h]
  · have hb : (u == t) = false := beq_eq_false_iff_ne.mpr h
    simp [hb, h]

theorem getCount_setCount (c : Count) (tag u : String) (n : Nat) :
    getCount (setCount c tag n) u = if u = tag then n else getCount c u := by
  induction c with
  | nil =>
    simp only [setCount, getCount_cons, getCount_nil]
  | cons p rest ih =>
    obtain ⟨t, m⟩ := p
    by_cases htt : t = tag
    · subst htt
      simp only [setCount, eq_self_iff_true, if_true]
      rw [getCount_cons, getCount_cons]
      split_ifs <;> rfl
    · simp only [setCount, if_neg htt]
      rw [getCount_cons, getCount_cons, ih]
      split_ifs <;> simp_all

theorem getCount_setCount_self (c : Count) (tag : String) (n : Nat) :
    getCount (setCount c tag n) tag = n := by
  simp [getCount_setCount]

theorem getCount_setCount_ne (c : Count) (tag u : String) (n : Nat)
    (h : u ≠ tag) : getCount (setCount c tag n) u = getCount c u := by
  simp [getCount_setCount, h]

theorem idsFrom_append (idx : Nat) (a : Nat) :
    ∀ (start b : Nat),
      idsFrom idx start a ++ idsFrom idx (start + a) b = idsFrom idx start (a + b) := by
  induction a with
  | zero => intro start b; simp [idsFrom]
  | succ a ih =>
    intro start b
    have h1 : start + (a + 1) = (start + 1) + a := by omega
    have h2 : a + 1 + b = (a + b) + 1 := by omega
    simp only [idsFrom, List.cons_append, h1, h2, ih]

theorem idsFrom_getElem (idx : Nat) :
    ∀ (len start n : Nat), n < len →
      (idsFrom idx start len)[n]? = some (mkId idx (start + n + 1)) := by
  intro len
  induction len with
  | zero => intro start n h; omega
  | succ len ih =>
    intro start n h
    cases n with
    | zero => simp [idsFrom]
    | succ n =>
      have h' : n < len := by omega
      have := ih (start + 1) n h'
      simp only [idsFrom, List.getElem?_cons_succ, this]
      have : start + 1 + n = start + (n + 1) := by omega
      rw [this]

theorem stackOk_nil (t : String) (idx : Nat) (c : Count) :
    StackOk t idx c { stack := [], count := c } := by
  constructor <;> simp [idsFrom]

theorem stackOk_comp {t : String} {idx : Nat} {c0 c1 c2 : Count}
    {s1 s2 : List Content}
    (h1 : StackOk t idx c0 { stack := s1, count := c1 })
    (h2 : StackOk t idx c1 { stack := s2, count := c2 }) :
    StackOk t idx c0 { stack := s1 ++ s2, count := c2 } := by
  obtain ⟨h1c, h1m⟩ := h1
  obtain ⟨h2c, h2m⟩ := h2
  simp only [StackOk, List.filter_append, List.length_append, List.map_append] at *
  constructor
  · omega
  · rw [h1m, h2m, h1c, idsFrom_append]

theorem stackOk_single {tag : String} (t : String) (idx : Nat) (c : Count)
    {rec : Content} (h1 : tagOf rec = tag)
    (h2 : rec.displayId = mkId idx (getCount c tag + 1)) :
    StackOk t idx c
      { stack := [rec], count := setCount c tag (getCount c tag + 1) } := by
  rcases eq_or_ne t tag with h | h
  · subst h
    constructor
    · simp [getCount_setCount_self, h1]
    · simp [h1, idsFrom, h2]
  · have h' : ¬tag = t := fun hh => h hh.symm
    constructor
    · simp [getCount_setCount_ne c tag t _ h, h1, h']
    · simp [h1, h', idsFrom]

theorem stackOk_skip {tag : String} (t : String) (idx : Nat) (c : Count)
    (n : Nat) (h : t ≠ tag) :
    StackOk t idx c { stack := [], count := setCount c tag n } := by
  constructor
  · simp [getCount_setCount_ne c tag t n h]
  · simp [idsFrom]

mutual

theorem push_decomp : ∀ (node : Node) (pa : Attrs) (s : List Content)
    (c : Count) (idx : Nat),
    push node pa { stack := s, count := c } idx =
      { stack := s ++ (push node pa { stack := [], count := c } idx).stack,
        count := (push node pa { stack := [], count := c } idx).count }
  | .text d, pa, s, c, idx => by simp [push]
  | .element tn attrs cs, pa, s, c, idx => by
    simp only [push]
    split_ifs with h1 h2 h3 h4 h5 h6 h7
    · simp
    · rw [pushList_decomp cs attrs
          (s ++ [expressionContent attrs
            (toString idx ++ "." ++
              toString (getCount
                (setCount c (toLowerCase tn) (getCount c (toLowerCase tn) + 1))
                (toLowerCase tn)))])
          (setCount c (toLowerCase tn) (getCount c (toLowerCase tn) + 1)) idx,
        pushList_decomp cs attrs
          ([] ++ [expressionContent attrs
            (toString idx ++ "." ++
              toString (getCount
                (setCount c (toLowerCase tn) (getCount c (toLowerCase tn) + 1))
                (toLowerCase tn)))])
          (setCount c (toLowerCase tn) (getCount c (toLowerCase tn) + 1)) idx]
      simp
    · simp
    · simp
    · simp
    · simp
    · simp
    · simp

theorem pushList_decomp : ∀ (ns : List Node) (pa : Attrs) (s : List Content)
    (c : Count) (idx : Nat),
    pushList ns pa { stack := s, count := c } idx =
      { stack := s ++ (pushList ns pa { stack := [], count := c } idx).stack,
        count := (pushList ns pa { stack := [], count := c } idx).count }
  | [], pa, s, c, idx => by simp [pushList]
  | n :: ns, pa, s, c, idx => by
    simp only [pushList]
    rw [push_decomp n pa s c idx]
    rw [pushList_decomp ns pa
          (s ++ (push n pa { stack := [], count := c } idx).stack)
          (push n pa { stack := [], count := c } idx).count idx]
    rw [push_decomp n pa [] c idx]
    simp only [List.nil_append]
    rw [pushList_decomp ns pa
          ((push n pa { stack := [], count := c } idx).stack)
          ((push n pa { stack := [], count := c } idx).count) idx]
    simp [List.append_assoc]

end

theorem tagOf_paragraphContent (tc d : String) :
    tagOf (paragraphContent tc d) = Tags.Paragraph := rfl

theorem tagOf_expressionContent (a : Attrs) (d : String) :
    tagOf (expressionContent a d) = Tags.Expression := by
  simp [tagOf, expressionContent]

theorem tagOf_tableContent (a pa : Attrs) (d : String) :
    tagOf (tableContent a pa d) = Tags.Table := rfl

theorem tagOf_diagramContent (a pa : Attrs) (d : String) :
    tagOf (diagramContent a pa d) = Tags.Diagram := rfl

theorem tagOf_definitionContent (a : Attrs) (tc d : String) :
    tagOf (definitionContent a tc d) = Tags.Definition := by
  simp [tagOf, definitionContent]

theorem tagOf_scenarioContent (a : Attrs) (d : String) :
    tagOf (scenarioContent a d) = Tags.Scenario := rfl

theorem tagOf_statementContent (a : Attrs) (tc d : String) :
    tagOf (statementContent a tc d) = Tags.Statement := rfl

mutual

theorem push_stackOk : ∀ (node : Node) (t : String) (pa : Attrs) (idx : Nat)
    (c : Count), t ∈ recognizedTags →
    StackOk t idx c (push node pa { stack := [], count := c } idx)
  | .text d, t, pa, idx, c, ht => by
    simp only [push]
    exact stackOk_nil t idx c
  | .element tn attrs cs, t, pa, idx, c, ht => by
    simp only [push]
    split_ifs with h1 h2 h3 h4 h5 h6 h7
    · rw [h1]
      simp only [List.nil_append, getCount_setCount_self]
      exact stackOk_single t idx c (tagOf_paragraphContent _ _) rfl
    · rw [h2]
      simp only [List.nil_append, getCount_setCount_self]
      rw [pushList_decomp cs attrs
            [expressionContent attrs
              (toString idx ++ "." ++ toString (getCount c Tags.Expression + 1))]
            (setCount c Tags.Expression (getCount c Tags.Expression + 1)) idx]
      exact stackOk_comp
        (stackOk_single t idx c (tagOf_expressionContent _ _) rfl)
        (pushList_stackOk cs t attrs idx
          (setCount c Tags.Expression (getCount c Tags.Expression + 1)) ht)
    · rw [h3]
      simp only [List.nil_append, getCount_setCount_self]
      exact stackOk_single t idx c (tagOf_tableContent _ _ _) rfl
    · rw [h4]
      simp only [List.nil_append, getCount_setCount_self]
      exact stackOk_single t idx c (tagOf_diagramContent _ _ _) rfl
    · rw [h5]
      simp only [List.nil_append, getCount_setCount_self]
      exact stackOk_single t idx c (tagOf_definitionContent _ _ _) rfl
    · rw [h6]
      simp only [List.nil_append, getCount_setCount_self]
      exact stackOk_single t idx c (tagOf_scenarioContent _ _) rfl
    · rw [h7]
      simp only [List.nil_append, getCount_setCount_self]
      exact stackOk_single t idx c (tagOf_statementContent _ _ _) rfl
    · have hne : t ≠ toLowerCase tn := by
        intro hEq
        subst hEq
        simp only [recognizedTags, List.mem_cons, List.not_mem_nil, or_false] at ht
        rcases ht with h | h | h | h | h | h | h <;> simp_all
      exact stackOk_skip t idx c _ hne

theorem pushList_stackOk : ∀ (ns : List Node) (t : String) (pa : Attrs)
    (idx : Nat) (c : Count), t ∈ recognizedTags →
    StackOk t idx c (pushList ns pa { stack := [], count := c } idx)
  | [], t, pa, idx, c, ht => by
    simp only [pushList]
    exact stackOk_nil t idx c
  | n :: ns, t, pa, idx, c, ht => by
    simp only [pushList]
    show StackOk t idx c
      (pushList ns pa
        { stack := (push n pa { stack := [], count := c } idx).stack,
          count := (push n pa { stack := [], count := c } idx).count } idx)
    rw [pushList_decomp ns pa
          ((push n pa { stack := [], count := c } idx).stack)
          ((push n pa { stack := [], count := c } idx).count) idx]
    exact stackOk_comp
      (push_stackOk n t pa idx c ht)
      (pushList_stackOk ns t pa idx
        ((push n pa { stack := [], count := c } idx).count) ht)

end

theorem push_definition_eq (tn : String) (attrs : Attrs) (cs : List Node)
    (pa : Attrs) (ctx : IterContext) (idx : Nat)
    (htag : toLowerCase tn = Tags.Definition) :
    push (.element tn attrs cs) pa ctx idx =
      { stack := ctx.stack ++
          [definitionContent attrs (textContentList cs)
            (mkId idx (getCount ctx.count Tags.Definition + 1))],
        count := setCount ctx.count Tags.Definition
          (getCount ctx.count Tags.Definition + 1) } := by
  simp only [push]
  rw [htag]
  rw [if_neg (by decide : ¬(Tags.Definition = Tags.Paragraph)),
      if_neg (by decide : ¬(Tags.Definition = Tags.Expression)),
      if_neg (by decide : ¬(Tags.Definition = Tags.Table)),
      if_neg (by decide : ¬(Tags.Definition = Tags.Diagram)),
      if_pos rfl, getCount_setCount_self]
  rfl

theorem push_table_eq (tn : String) (attrs : Attrs) (cs : List Node)
    (pa : Attrs) (ctx : IterContext) (idx : Nat)
    (htag : toLowerCase tn = Tags.Table) :
    push (.element tn attrs cs) pa ctx idx =
      { stack := ctx.stack ++
          [tableContent attrs pa (mkId idx (getCount ctx.count Tags.Table + 1))],
        count := setCount ctx.count Tags.Table
          (getCount ctx.count Tags.Table + 1) } := by
  simp only [push]
  rw [htag]
  rw [if_neg (by decide : ¬(Tags.Table = Tags.Paragraph)),
      if_neg (by decide : ¬(Tags.Table = Tags.Expression)),
      if_pos rfl, getCount_setCount_self]
  rfl

theorem push_diagram_eq (tn : String) (attrs : Attrs) (cs : List Node)
    (pa : Attrs) (ctx : IterContext) (idx : Nat)
    (htag : toLowerCase tn = Tags.Diagram) :
    push (.element tn attrs cs) pa ctx idx =
      { stack := ctx.stack ++
          [diagramContent attrs pa (mkId idx (getCount ctx.count Tags.Diagram + 1))],
        count := setCount ctx.count Tags.Diagram
          (getCount ctx.count Tags.Diagram + 1) } := by
  simp only [push]
  rw [htag]
  rw [if_neg (by decide : ¬(Tags.Diagram = Tags.Paragraph)),
      if_neg (by decide : ¬(Tags.Diagram = Tags.Expression)),
      if_neg (by decide : ¬(Tags.Diagram = Tags.Table)),
      if_pos rfl, getCount_setCount_self]
  rfl

theorem specTableDiagramValue_eq (attrs pa : Attrs) :
    specTableDiagramValue attrs pa = fromAttributes "value" [attrs, pa] := by
  cases hv : getNamedItem "value" attrs <;> cases hw : getNamedItem "value" pa <;>
    simp only [specTableDiagramValue, fromAttributes, hv, hw] <;>
    first
      | rfl
      | (split_ifs <;> rfl)

theorem mem_getElementsByTagNameList {x c : Node} {cs : List Node}
    {tag : String} (hc : c ∈ cs) (hx : x ∈ getElementsByTagName tag c) :
    x ∈ getElementsByTagNameList tag cs := by
  induction cs with
  | nil => cases hc
  | cons a as ih =>
    rcases List.mem_cons.mp hc with rfl | h
    · exact List.mem_append.mpr (Or.inl hx)
    · exact List.mem_append.mpr (Or.inr (ih h))

theorem mem_getElementsByTagName {x root : Node} {tag : String}
    (hIn : InTree x root) (htag : tagNameOf x = some tag) :
    x ∈ getElementsByTagName tag root := by
  induction hIn with
  | refl =>
    cases x with
    | text d => simp [tagNameOf] at htag
    | element tn a cns =>
      simp only [tagNameOf, Option.some.injEq] at htag
      subst htag
      simp [getElementsByTagName]
  | child hc hsub ih =>
    exact List.mem_append.mpr (Or.inr (mem_getElementsByTagNameList hc ih))

theorem buildArticles_length : ∀ (l : List Node) (i : Nat),
    (buildArticles l i).length = l.length := by
  intro l
  induction l with
  | nil => intro i; rfl
  | cons a as ih => intro i; simp [buildArticles, ih]

theorem mem_buildArticles {art : Article} : ∀ (l : List Node) (i : Nat),
    art ∈ buildArticles l i → ∃ a j, art = buildArticle a j := by
  intro l
  induction l with
  | nil => intro i h; simp [buildArticles] at h
  | cons a as ih =>
    intro i h
    simp only [buildArticles, List.mem_cons] at h
    rcases h with rfl | h
    · exact ⟨a, i + 1, rfl⟩
    · exact ih (i + 1) h

/-! Claim theorems. -/

/-- C1: for an article processed with 1-based ordinal `A` (the traversal
`iterEachArticle` runs via `buildArticle`: `pushList` over the article's
child nodes from a fresh context), and any tag `t` of the recognized
vocabulary, the `n`-th record built from a `t`-tagged element (0-based
index `n` over the pre-filter stack restricted to `t`, counting nested
expression recursion and records later filtered for empty value) carries
`displayId = "A.(n+1)"`: the per-tag counter increments before the record
is built and is shared, not reset, across expression nesting depth. -/
theorem displayId_per_tag_numbering (A : Nat) (pa : Attrs) (ns : List Node)
    (t : String) (ht : t ∈ recognizedTags) (n : Nat) (r : Content)
    (h : ((pushList ns pa { stack := [], count := [] } A).stack.filter
            (fun r => tagOf r = t))[n]? = some r) :
    r.displayId = mkId A (n + 1) := by
  obtain ⟨hc, hm⟩ := pushList_stackOk ns t pa A [] ht
  rw [getCount_nil] at hm
  set L := (pushList ns pa { stack := [], count := [] } A).stack.filter
    (fun r => tagOf r = t) with hL
  have hn : n < L.length := by
    rcases Nat.lt_or_ge n L.length with h' | h'
    · exact h'
    · rw [List.getElem?_eq_none h'] at h
      cases h
  have h2 : (L.map (fun r => r.displayId))[n]? = some r.displayId := by
    rw [List.getElem?_map, h]
    rfl
  rw [hm, idsFrom_getElem A L.length 0 n hn] at h2
  have h3 := Option.some.inj h2
  simpa using h3.symm

/-- C1 witness: the spec's own example, an article with paragraphs
`"Hello"` and `""`: the second paragraph record (kept in the pre-filter
stack although its value is empty) carries `displayId = "1.2"`. -/
theorem displayId_per_tag_numbering_witness :
    ("p" ∈ recognizedTags
      ∧ ((pushList [Node.element "p" [] [Node.text "Hello"],
            Node.element "p" [] [Node.text ""]]
            [("title", "T")] { stack := [], count := [] } 1).stack.filter
            (fun r => tagOf r = "p"))[1]? = some (paragraphContent "" "1.2"))
    ∧ (paragraphContent "" "1.2").displayId = mkId 1 (1 + 1) :=
  ⟨⟨by decide, by decide⟩,
    displayId_per_tag_numbering 1 [("title", "T")]
      [Node.element "p" [] [Node.text "Hello"],
       Node.element "p" [] [Node.text ""]]
      "p" (by decide) 1 (paragraphContent "" "1.2") (by decide)⟩

/-- C2 counterexample: on exactly the claim's input — article ordinal 1
whose `e` element (`name="Euro"`) contains a nested `e` (`name="Sub"`),
and no `value` attributes — the article's resulting (post-filter) content
sequence is empty, so it does not contain the two input-text records the
claim asserts: both records have an absent `value` and are filtered out. -/
theorem nested_expression_filtered_out :
    (buildArticle (Node.element "article" [("title", "T")]
        [Node.element "e" [("name", "Euro")]
          [Node.element "e" [("name", "Sub")] []]]) 1).content = []
    ∧ ((buildArticle (Node.element "article" [("title", "T")]
        [Node.element "e" [("name", "Euro")]
          [Node.element "e" [("name", "Sub")] []]]) 1).content.filter
          (fun r => r.display = Display.I_TEXT)).length = 0 := by
  decide

/-- C2 (amended): on the claim's input the *traversal* pushes exactly two
input-text records with `displayId` `"1.1"` and `"1.2"` (shared counter
across nesting depth), but both are filtered out of the article's content
sequence for empty value; with non-empty `value` attributes added to both
expressions, the article's content sequence does contain them, with the
same display identifiers. -/
theorem nested_expression_shared_counter :
    ((pushList [Node.element "e" [("name", "Euro")]
          [Node.element "e" [("name", "Sub")] []]]
        [("title", "T")] { stack := [], count := [] } 1).stack.map
          (fun r => (r.display, r.displayId, r.ref)))
      = [(Display.I_TEXT, "1.1", some "Euro"),
         (Display.I_TEXT, "1.2", some "Sub")]
    ∧ ((buildArticle (Node.element "article" [("title", "T")]
          [Node.element "e" [("name", "Euro"), ("value", "1 EUR")]
            [Node.element "e" [("name", "Sub"), ("value", "2 EUR")] []]]) 1).content.map
          (fun r => (r.display, r.displayId, r.ref)))
      = [(Display.I_TEXT, "1.1", some "Euro"),
         (Display.I_TEXT, "1.2", some "Sub")] := by
  decide

/-- C3 counterexample: an element with the unrecognized tag `foo`
contributes no record, but processing it *does* advance a per-tag counter
in the article's counter map: the entry under its own tag name goes from
0 to 1. -/
theorem unrecognized_counter_advances :
    (push (Node.element "foo" [] []) [] { stack := [], count := [] } 1)
      = { stack := [], count := [("foo", 1)] }
    ∧ getCount (push (Node.element "foo" [] []) []
        { stack := [], count := [] } 1).count "foo"
      ≠ getCount ([] : Count) "foo" := by
  exact ⟨by decide, by decide⟩

/-- C3 (amended): a non-element node contributes nothing and advances no
counter; an element whose lower-cased tag is outside the recognized
vocabulary contributes no Content record and advances no *recognized*
tag's counter — it only bumps the counter entry under its own
(unrecognized) tag name. -/
theorem unrecognized_and_text_ignored (tn : String) (attrs : Attrs)
    (cs : List Node) (pa : Attrs) (ctx : IterContext) (idx : Nat)
    (d : String) (h : toLowerCase tn ∉ recognizedTags) :
    (push (.element tn attrs cs) pa ctx idx).stack = ctx.stack
    ∧ (∀ t ∈ recognizedTags,
        getCount (push (.element tn attrs cs) pa ctx idx).count t
          = getCount ctx.count t)
    ∧ push (.text d) pa ctx idx = ctx := by
  have hp : ¬(toLowerCase tn = Tags.Paragraph) := fun hh => h (by rw [hh]; decide)
  have he : ¬(toLowerCase tn = Tags.Expression) := fun hh => h (by rw [hh]; decide)
  have htb : ¬(toLowerCase tn = Tags.Table) := fun hh => h (by rw [hh]; decide)
  have hdg : ¬(toLowerCase tn = Tags.Diagram) := fun hh => h (by rw [hh]; decide)
  have hdf : ¬(toLowerCase tn = Tags.Definition) := fun hh => h (by rw [hh]; decide)
  have hsc : ¬(toLowerCase tn = Tags.Scenario) := fun hh => h (by rw [hh]; decide)
  have hst : ¬(toLowerCase tn = Tags.Statement) := fun hh => h (by rw [hh]; decide)
  have hstep : push (.element tn attrs cs) pa ctx idx
      = { stack := ctx.stack,
          count := setCount ctx.count (toLowerCase tn)
            (getCount ctx.count (toLowerCase tn) + 1) } := by
    simp only [push]
    rw [if_neg hp, if_neg he, if_neg htb, if_neg hdg, if_neg hdf, if_neg hsc,
      if_neg hst]
  refine ⟨by rw [hstep], ?_, rfl⟩
  intro t htm
  rw [hstep]
  exact getCount_setCount_ne _ _ _ _ (fun hEq => h (hEq ▸ htm))

/-- C3 witness: the amended statement at the concrete unrecognized element
`<foo>` with a populated context: the stack is untouched and the
recognized counter `"p"` keeps its value 2. -/
theorem unrecognized_and_text_ignored_witness :
    (toLowerCase "foo" ∉ recognizedTags)
    ∧ (push (Node.element "foo" [] [Node.text "z"]) [("a", "b")]
        { stack := [], count := [("p", 2)] } 3).stack = []
    ∧ getCount (push (Node.element "foo" [] [Node.text "z"]) [("a", "b")]
        { stack := [], count := [("p", 2)] } 3).count "p" = 2 :=
  ⟨by decide,
   (unrecognized_and_text_ignored "foo" [] [Node.text "z"] [("a", "b")]
      { stack := [], count := [("p", 2)] } 3 "w" (by decide)).1,
   by
     have h := (unrecognized_and_text_ignored "foo" [] [Node.text "z"]
       [("a", "b")] { stack := [], count := [("p", 2)] } 3 "w" (by decide)).2.1
       "p" (by decide)
     rw [h]
     decide⟩

/-- C4: for any `table` or `diagram` element, the `value` field of the
record it pushes equals the spec's resolution rule
(`specTableDiagramValue`, modelled from the spec's words): the element's
own `value` attribute if present and non-empty, otherwise the parent
element's `value` attribute if present and non-empty, otherwise absent. -/
theorem table_diagram_value_resolution (tn : String) (attrs : Attrs)
    (cs : List Node) (pa : Attrs) (ctx : IterContext) (idx : Nat)
    (h : toLowerCase tn = Tags.Table ∨ toLowerCase tn = Tags.Diagram) :
    ((push (.element tn attrs cs) pa ctx idx).stack.getLast?).map
        (fun r => r.value)
      = some (specTableDiagramValue attrs pa) := by
  rcases h with h | h
  · rw [push_table_eq tn attrs cs pa ctx idx h]
    simp [List.getLast?_concat, tableContent, specTableDiagramValue_eq]
  · rw [push_diagram_eq tn attrs cs pa ctx idx h]
    simp [List.getLast?_concat, diagramContent, specTableDiagramValue_eq]

/-- C4 witness: a `table` element whose own `value` attribute is empty
falls back to the parent's `value` attribute (`"PV"`), and a `diagram`
element with no `value` anywhere gets an absent value. -/
theorem table_diagram_value_resolution_witness :
    (toLowerCase "table" = Tags.Table ∨ toLowerCase "table" = Tags.Diagram)
    ∧ ((push (Node.element "table" [("value", "")] []) [("value", "PV")]
          { stack := [], count := [] } 1).stack.getLast?).map (fun r => r.value)
        = some (specTableDiagramValue [("value", "")] [("value", "PV")])
    ∧ specTableDiagramValue [("value", "")] [("value", "PV")] = some "PV"
    ∧ specTableDiagramValue [] [] = none :=
  ⟨Or.inl (by decide),
   table_diagram_value_resolution "table" [("value", "")] [] [("value", "PV")]
     { stack := [], count := [] } 1 (Or.inl (by decide)),
   by decide, by decide⟩

/-- C5: a `definition` element with non-empty trimmed text content and a
`value` attribute produces a record whose `value` is the trimmed text
content (the attribute is ignored), with display kind `input/text` and
`def` field the constant `"local"`. -/
theorem definition_prefers_text (tn : String) (attrs : Attrs) (cs : List Node)
    (pa : Attrs) (ctx : IterContext) (idx : Nat) (v : String)
    (htag : toLowerCase tn = Tags.Definition)
    (hval : getNamedItem "value" attrs = some v)
    (htext : trimString (textContentList cs) ≠ "") :
    push (.element tn attrs cs) pa ctx idx
      = { stack := ctx.stack ++
            [{ displayId := mkId idx (getCount ctx.count Tags.Definition + 1),
               display := Display.I_TEXT,
               value := some (trimString (textContentList cs)),
               ref := fromAttributes "name" [attrs],
               type := fromAttributes "type" [attrs],
               defField := some "local" }],
          count := setCount ctx.count Tags.Definition
            (getCount ctx.count Tags.Definition + 1) } := by
  rw [push_definition_eq tn attrs cs pa ctx idx htag]
  simp [definitionContent, htext]

/-- C5 witness: `<def name="x" type="t" value="attr"> hi </def>` keeps the
trimmed text `"hi"` as value, not the attribute `"attr"`. -/
theorem definition_prefers_text_witness :
    (toLowerCase "def" = Tags.Definition
      ∧ getNamedItem "value" [("name", "x"), ("type", "t"), ("value", "attr")]
          = some "attr"
      ∧ trimString (textContentList [Node.text " hi "]) ≠ "")
    ∧ push (Node.element "def" [("name", "x"), ("type", "t"), ("value", "attr")]
          [Node.text " hi "]) [] { stack := [], count := [] } 1
        = { stack := [{ displayId := "1.1",
                        display := Display.I_TEXT,
                        value := some "hi",
                        ref := some "x",
                        type := some "t",
                        defField := some "local" }],
            count := [("def", 1)] } :=
  ⟨⟨by decide, by decide, by decide⟩,
   (definition_prefers_text "def" [("name", "x"), ("type", "t"), ("value", "attr")]
      [Node.text " hi "] [] { stack := [], count := [] } 1 "attr"
      (by decide) (by decide) (by decide)).trans (by decide)⟩

/-- C6: terminology extraction is document-wide and independent of article
nesting: every `def` element occurring anywhere in the document tree
(`InTree`) yields its `Terminology` pair (name and value attributes) in
the parse result. -/
theorem terminology_document_wide (dom : String → Node) (s : String)
    (x : Node) (hIn : InTree x (dom s)) (htag : tagNameOf x = some "def") :
    buildTerminology x ∈ (parse dom s).terminology := by
  have hm := mem_getElementsByTagName hIn htag
  simp only [parse, iterEach, iterEachTerminology, iterEachArticle,
    List.nil_append]
  exact List.mem_map_of_mem _ hm

/-- C6 witness: in `exDoc`, the definition nested inside the article
yields a Terminology entry (via the theorem), the definition outside any
article yields one too, and the nested definition additionally yields an
input-text Content record in the article's content sequence. -/
theorem terminology_document_wide_witness :
    InTree exDefInner exDoc
    ∧ buildTerminology exDefInner ∈ (parse (fun _ => exDoc) "src").terminology
    ∧ (parse (fun _ => exDoc) "src").terminology
        = [{ name := some "A", value := some "V" },
           { name := some "B", value := some "W" }]
    ∧ ((parse (fun _ => exDoc) "src").articles.map
        (fun a => a.content.map (fun r => (r.display, r.defField, r.value))))
        = [[(Display.I_TEXT, some "local", some "W")]] :=
  have hIn : InTree exDefInner exDoc :=
    InTree.child (List.mem_cons_of_mem _ (List.mem_cons_self _ _))
      (InTree.child (List.mem_cons_self _ _) (InTree.refl exDefInner))
  ⟨hIn,
   terminology_document_wide (fun _ => exDoc) "src" exDefInner hIn rfl,
   by decide, by decide⟩

/-- C7: the article and terminology collections are ordered and
append-only with no structural deduplication: one entry is appended per
matching element (so the lengths add up exactly, with nothing collapsed),
and on `dupDoc` — two identical articles and two identical definitions —
both identical entries appear, in document order. -/
theorem no_deduplication (doc : Node) (p : Parser) :
    ((iterEach doc p).articles.length
        = p.articles.length + (getElementsByTagName "article" doc).length
      ∧ (iterEach doc p).terminology.length
        = p.terminology.length + (getElementsByTagName "def" doc).length)
    ∧ (parse (fun _ => dupDoc) "").articles
        = [{ title := some "Same", content := [] },
           { title := some "Same", content := [] }]
    ∧ (parse (fun _ => dupDoc) "").terminology
        = [{ name := some "N", value := some "V" },
           { name := some "N", value := some "V" }] := by
  refine ⟨⟨?_, ?_⟩, by decide, by decide⟩
  · simp [iterEach, iterEachTerminology, iterEachArticle, buildArticles_length]
  · simp [iterEach, iterEachTerminology, iterEachArticle]

/-- C8: every Content record attached to an article in the parse result
has a truthy (present, non-empty) value: records with a falsy value are
filtered out before the article is built. -/
theorem content_values_truthy (dom : String → Node) (s : String)
    (art : Article) (r : Content)
    (hart : art ∈ (parse dom s).articles) (hr : r ∈ art.content) :
    truthy r.value = true := by
  simp only [parse, iterEach, iterEachTerminology, iterEachArticle,
    List.nil_append] at hart
  obtain ⟨a, j, rfl⟩ := mem_buildArticles _ _ hart
  simp only [buildArticle] at hr
  exact (List.mem_filter.mp hr).2

/-- C8 witness: the kept definition record of `exDoc`'s article has the
truthy value `some "W"`. -/
theorem content_values_truthy_witness :
    ({ title := some "T",
       content := [definitionContent [("name", "B"), ("value", "W")] "" "1.1"] }
        : Article) ∈ (parse (fun _ => exDoc) "").articles
    ∧ definitionContent [("name", "B"), ("value", "W")] "" "1.1"
        ∈ ({ title := some "T",
             content := [definitionContent [("name", "B"), ("value", "W")] "" "1.1"] }
            : Article).content
    ∧ truthy (definitionContent [("name", "B"), ("value", "W")] "" "1.1").value
        = true :=
  ⟨by decide, by decide,
   content_values_truthy (fun _ => exDoc) ""
     { title := some "T",
       content := [definitionContent [("name", "B"), ("value", "W")] "" "1.1"] }
     (definitionContent [("name", "B"), ("value", "W")] "" "1.1")
     (by decide) (by decide)⟩

/-- C9: the transform is a pure function of the parsed tree with no hidden
state between runs: re-running `parse` on the same input yields the
identical `Issue`, and the parser state is append-only, with `parse`
always starting from the fresh empty `Parser` — so the output lists are
exactly the fresh-run lists. -/
theorem pure_transform (dom : String → Node) (s : String) (doc : Node)
    (p : Parser) :
    parse dom s = parse dom s
    ∧ (iterEach doc p).articles = p.articles ++ (iterEach doc { }).articles
    ∧ (iterEach doc p).terminology
        = p.terminology ++ (iterEach doc { }).terminology := by
  refine ⟨rfl, ?_, ?_⟩ <;>
    simp [iterEach, iterEachTerminology, iterEachArticle]

/-- C10 (implicit): for a `definition` element with both non-empty trimmed
text content and a `value` attribute, the document-wide Terminology entry
takes its value solely from the `value` attribute (never the text), so
whenever the trimmed text differs from the attribute, the Terminology
value differs from the in-article Content value (which is the trimmed
text). -/
theorem terminology_value_from_attribute (tn : String) (attrs : Attrs)
    (cs : List Node) (pa : Attrs) (ctx : IterContext) (idx : Nat) (v : String)
    (htag : toLowerCase tn = Tags.Definition)
    (hval : getNamedItem "value" attrs = some v)
    (htext : trimString (textContentList cs) ≠ "")
    (hdiff : trimString (textContentList cs) ≠ v) :
    (buildTerminology (.element tn attrs cs)).value = fromAttributes "value" [attrs]
    ∧ ((push (.element tn attrs cs) pa ctx idx).stack.getLast?).map
        (fun r => r.value)
      = some (some (trimString (textContentList cs)))
    ∧ (buildTerminology (.element tn attrs cs)).value
        ≠ some (trimString (textContentList cs)) := by
  refine ⟨rfl, ?_, ?_⟩
  · rw [push_definition_eq tn attrs cs pa ctx idx htag]
    simp [List.getLast?_concat, definitionContent, htext]
  · simp only [buildTerminology, attrsOf, fromAttributes, hval]
    split_ifs with hv
    · simp
    · intro hcontra
      exact hdiff (Option.some.inj hcontra).symm

/-- C10 witness: `<def name="x" value="attr"> hi </def>` yields
Terminology value `some "attr"` but in-article Content value
`some "hi"`. -/
theorem terminology_value_from_attribute_witness :
    (toLowerCase "def" = Tags.Definition
      ∧ getNamedItem "value" [("name", "x"), ("value", "attr")] = some "attr"
      ∧ trimString (textContentList [Node.text " hi "]) ≠ ""
      ∧ trimString (textContentList [Node.text " hi "]) ≠ "attr")
    ∧ (buildTerminology (Node.element "def" [("name", "x"), ("value", "attr")]
          [Node.text " hi "])).value = some "attr"
    ∧ (buildTerminology (Node.element "def" [("name", "x"), ("value", "attr")]
          [Node.text " hi "])).value ≠ some "hi" :=
  ⟨⟨by decide, by decide, by decide, by decide⟩,
   by
     have h := (terminology_value_from_attribute "def"
       [("name", "x"), ("value", "attr")] [Node.text " hi "] []
       { stack := [], count := [] } 1 "attr"
       (by decide) (by decide) (by decide) (by decide)).1
     rw [h]
     decide,
   by
     have h := (terminology_value_from_attribute "def"
       [("name", "x"), ("value", "attr")] [Node.text " hi "] []
       { stack := [], count := [] } 1 "attr"
       (by decide) (by decide) (by decide) (by decide)).2.2
     intro hcontra
     exact h (by rw [hcontra]; decide)⟩

end CheltuieliLang
